import Mathlib

/-!
# Verification of `preserveorder.js`

A shallow embedding of the repository `preserveorder.js` and proofs about it.

The program merges several ordered sequences of labels (JS strings) into one
duplicate-free sequence:

* `updateRules` records, for a single sequence, every pair of positions
  `i < j` as "label at `i` precedes label at `j`" in a nested table
  `rules[curr][temp] = 1`.
* `getMasterRules` runs `updateRules` over every input sequence and then does
  a single in-place merge pass over the keys of the table
  (`rules[rule] = _.merge(rules[rule], rules[key] || {})` for each `key` in a
  snapshot of `Object.keys(rules[rule])`).
* `preserveOrder` collects the distinct labels (insertion order of first
  occurrence) and sorts them with the comparator `sortByRules`
  (`-1` when `rules[a][b]`, `1` when `rules[b][a]`, else `0`).

Modelling decisions:

* JS objects used as dictionaries are modelled as insertion-ordered
  association lists (`List (Label × List Label)`), which is the ECMAScript
  own-property order for non-index string keys.  Lodash `_.merge` on these
  flat tables adds the absent source keys, in source order, after the
  destination keys.
* `Array.prototype.sort` receives a comparator that is in general
  inconsistent (incomparable labels compare "equal"), for which ECMAScript
  leaves the resulting order implementation-defined (it must be a
  permutation).  The reference runtime for the repository is Node/V8, whose
  TimSort reduces, for arrays of fewer than 64 elements (every array in this
  repository's tests), to: detect a maximal initial ascending run (or
  strictly descending run, which gets reversed), then binary-insert the
  remaining elements one by one.  `jsSort` below is exactly that procedure,
  and it reproduces all of the repository's test outputs.
-/

namespace PreserveOrder

/-- Labels are JS strings. -/
abbrev Label := String

/-- The value of one entry of the rules table: the keys of the inner object
`rules[k]`, in insertion order.  (All inner values are the number `1`, so only
the key set matters.) -/
abbrev RuleSet := List Label

/-- The rules table `rules`: keys in insertion order, each with its inner key
set. -/
abbrev Rules := List (Label × RuleSet)

/-- Property lookup `rules[k]` (`none` when the key is absent). -/
def lookupRules : Rules → Label → Option RuleSet
  | [], _ => none
  | (k, v) :: rest, a => if k = a then some v else lookupRules rest a

/-- The truthiness test `rules[a] && rules[a][b]` used by the comparator. -/
def hasRule (rules : Rules) (a b : Label) : Bool :=
  match lookupRules rules a with
  | some v => v.contains b
  | none => false

/-- Key creation in the source (`rules[curr]` is set to a fresh empty object
when absent): create the key with an empty inner
object when absent.  A fresh key is appended at the end (JS insertion
order). -/
def ensureKey (rules : Rules) (k : Label) : Rules :=
  if (lookupRules rules k).isSome then rules else rules ++ [(k, [])]

/-- Marking `rules[a][b] = 1` in the source: add `b` to the inner key set of `a` (no-op when `b` is
already there, appended at the end otherwise).  Assumes key `a` exists; does
nothing when it does not (the source always creates the key first). -/
def addSucc : Rules → Label → Label → Rules
  | [], _, _ => []
  | (k, v) :: rest, a, b =>
    if k = a then (k, if b ∈ v then v else v ++ [b]) :: rest
    else (k, v) :: addSucc rest a b

/-- The body of `updateRules` for one value of `i`: `curr = arr[i]`, `rest`
the elements after it; ensure the key and mark every later element. -/
def markAfter (rules : Rules) (curr : Label) (rest : List Label) : Rules :=
  rest.foldl (fun r t => addSucc r curr t) (ensureKey rules curr)

/-- The two nested loops of `updateRules` (`i` from `0` to `l - 2`, `j` from
`i + 1` to `l - 1`). -/
def updateRulesAux : List Label → Rules → Rules
  | [], rules => rules
  | [_], rules => rules
  | curr :: next :: rest, rules =>
    updateRulesAux (next :: rest) (markAfter rules curr (next :: rest))

/-- The source's `updateRules(arr, rules)`: record every pair of positions
`i < j` of `arr` in the table (early return when `arr.length <= 1`). -/
def updateRules (arr : List Label) (rules : Rules) : Rules :=
  if arr.length ≤ 1 then rules else updateRulesAux arr rules

/-- One inner step of the merge pass:
`rules[rule] = _.merge(rules[rule], rules[key] || {})` — add every key of
`src` absent from `rule`'s inner set, in `src` order. -/
def mergeInto (rules : Rules) (rule : Label) (src : RuleSet) : Rules :=
  src.foldl (fun r s => addSucc r rule s) rules

/-- The merge pass body for one key `rule`:
`Object.keys(rules[rule]).forEach(key => rules[rule] = _.merge(rules[rule], rules[key] || {}))`.
The key list of `rules[rule]` is snapshotted once; each `rules[key]` is read
from the current, already partially merged table. -/
def mergeStep (rules : Rules) (rule : Label) : Rules :=
  let snapshot := (lookupRules rules rule).getD []
  snapshot.foldl (fun r key => mergeInto r rule ((lookupRules r key).getD [])) rules

/-- The source's `getMasterRules(input)`: collect the per-sequence rules,
then run the single merge pass over a snapshot of the table's keys. -/
def getMasterRules (input : List (List Label)) : Rules :=
  let rules := input.foldl (fun r arr => updateRules arr r) []
  (rules.map Prod.fst).foldl mergeStep rules

/-- The `uniq` table of `preserveOrder`: all distinct labels, in order of
first occurrence. -/
def getUniq (input : List (List Label)) : List Label :=
  input.foldl (fun acc arr => arr.foldl (fun a e => if e ∈ a then a else a ++ [e]) acc) []

/-- The comparator `sortByRules(a, b)` passed to `Array.prototype.sort`. -/
def sortByRules (rules : Rules) (a b : Label) : Int :=
  if hasRule rules a b then -1 else if hasRule rules b a then 1 else 0

/-- Length of the maximal run continuation: counts how many further elements
continue an ascending (`c next prev ≥ 0`) or, when `isDesc`, a strictly
descending (`c next prev < 0`) run. -/
def countRunAux (c : Label → Label → Int) (isDesc : Bool) : Label → List Label → Nat
  | _, [] => 0
  | prev, x :: xs =>
    if isDesc then
      if c x prev < 0 then 1 + countRunAux c isDesc x xs else 0
    else
      if c x prev < 0 then 0 else 1 + countRunAux c isDesc x xs

/-- The loop body of V8's binary search (`mid` rounds down; move `right`
down to `mid` when `c pivot a[mid] < 0`, else move `left` past `mid`),
written with an explicit fuel counter so that the recursion is structural:
the gap `right - left` shrinks every round, so `right - left` rounds always
suffice and the fuel never runs out on the calls made by `bsearch`. -/
def bsearchAux (c : Label → Label → Int) (a : List Label) (pivot : Label) :
    Nat → Nat → Nat → Nat
  | 0, left, _ => left
  | fuel + 1, left, right =>
    if left < right then
      let mid := left + (right - left) / 2
      if c pivot (a.getD mid "") < 0 then
        bsearchAux c a pivot fuel left mid
      else
        bsearchAux c a pivot fuel (mid + 1) right
    else left

/-- Binary search for the insertion point of `pivot` in `a` between `left`
and `right` (V8's `BinaryInsertionSort` inner loop). -/
def bsearch (c : Label → Label → Int) (a : List Label) (pivot : Label)
    (left right : Nat) : Nat :=
  bsearchAux c a pivot (right - left) left right

/-- Insert `x` at position `pos` of `l` (elements from `pos` on shift
right). -/
def insertAt (l : List Label) (pos : Nat) (x : Label) : List Label :=
  l.take pos ++ x :: l.drop pos

/-- Binary-insert each pending element, in order, into the growing sorted
prefix. -/
def binaryInsertLoop (c : Label → Label → Int) :
    List Label → List Label → List Label
  | sorted, [] => sorted
  | sorted, x :: xs =>
      binaryInsertLoop c (insertAt sorted (bsearch c sorted x 0 sorted.length) x) xs

/-- The model of `Array.prototype.sort(c)` as run by V8 on arrays of fewer than 64
elements: find the initial run (reversing it when strictly descending), then
binary-insert the rest. -/
def jsSort (c : Label → Label → Int) (l : List Label) : List Label :=
  match l with
  | [] => []
  | [x] => [x]
  | x :: y :: rest =>
    let isDesc := c y x < 0
    let runLength := 2 + countRunAux c isDesc y rest
    let whole := x :: y :: rest
    let arranged :=
      if isDesc then (whole.take runLength).reverse ++ whole.drop runLength else whole
    binaryInsertLoop c (arranged.take runLength) (arranged.drop runLength)

/-- The source's `preserveOrder(input)`: master rules, distinct labels,
comparator sort. -/
def preserveOrder (input : List (List Label)) : List Label :=
  let rules := getMasterRules input
  jsSort (sortByRules rules) (getUniq input)

/-! ## Specification-side predicates -/

/-- All pairs of positions `i < j` of one sequence, as (earlier, later)
label pairs. -/
def seqPairs : List Label → List (Label × Label)
  | [] => []
  | x :: xs => xs.map (fun y => (x, y)) ++ seqPairs xs

/-- All direct pairwise rules of an input. -/
def allDirectPairs (input : List (List Label)) : List (Label × Label) :=
  (input.map seqPairs).flatten

/-- Some sequence of the input places `a` strictly before `b`. -/
def DirectPair (input : List (List Label)) (a b : Label) : Prop :=
  ∃ s ∈ input, (a, b) ∈ seqPairs s

/-- Position predicate: `a` appears strictly before `b` in the list `m`. -/
def Before (m : List Label) (a b : Label) : Prop :=
  ∃ i j, ∃ (hi : i < m.length) (hj : j < m.length),
    i < j ∧ m.get ⟨i, hi⟩ = a ∧ m.get ⟨j, hj⟩ = b

/-- A valid input per the specification: non-empty list of non-empty,
duplicate-free sequences whose direct pairwise rules are non-contradictory
and acyclic (no label precedes itself through any chain). -/
def Valid (input : List (List Label)) : Prop :=
  input ≠ [] ∧ (∀ s ∈ input, s ≠ [] ∧ s.Nodup) ∧
  (∀ a b, DirectPair input a b → ¬ DirectPair input b a) ∧
  (∀ a, ¬ Relation.TransGen (DirectPair input) a a)

/-- The master relation relates every two distinct labels of the input. -/
def MasterTotal (input : List (List Label)) : Prop :=
  ∀ a ∈ getUniq input, ∀ b ∈ getUniq input, a ≠ b →
    hasRule (getMasterRules input) a b = true ∨ hasRule (getMasterRules input) b a = true

instance (input : List (List Label)) : Decidable (MasterTotal input) := by
  unfold MasterTotal; infer_instance

/-! ## Bridging lemmas for the predicates -/

theorem mem_seqPairs_iff {s : List Label} {a b : Label} :
    (a, b) ∈ seqPairs s ↔ Before s a b := by
  induction s with
  | nil => simp [seqPairs, Before]
  | cons x xs ih =>
    simp only [seqPairs, List.mem_append, List.mem_map, ih, Before]
    constructor
    · rintro (⟨y, hy, heq⟩ | ⟨i, j, hi, hj, hij, ha, hb⟩)
      · obtain ⟨rfl, rfl⟩ := Prod.mk.injEq .. ▸ heq
        obtain ⟨⟨j, hj⟩, rfl⟩ := List.mem_iff_get.1 hy
        exact ⟨0, j + 1, by simp, by simpa using Nat.succ_lt_succ hj,
          Nat.succ_pos j, rfl, by simp⟩
      · exact ⟨i + 1, j + 1, by simpa using Nat.succ_lt_succ hi,
          by simpa using Nat.succ_lt_succ hj, by omega,
          by simpa using ha, by simpa using hb⟩
    · rintro ⟨i, j, hi, hj, hij, ha, hb⟩
      match i, j with
      | 0, j + 1 =>
        left
        refine ⟨b, ?_, ?_⟩
        · have hj' : j < xs.length := by simpa using Nat.lt_of_succ_lt_succ hj
          have : xs.get ⟨j, hj'⟩ = b := by simpa using hb
          exact this ▸ List.get_mem ..
        · have : x = a := by simpa using ha
          simp [this]
      | i + 1, j + 1 =>
        right
        have hi' : i < xs.length := by simpa using Nat.lt_of_succ_lt_succ hi
        have hj' : j < xs.length := by simpa using Nat.lt_of_succ_lt_succ hj
        exact ⟨i, j, hi', hj', by omega, by simpa using ha, by simpa using hb⟩

instance (m : List Label) (a b : Label) : Decidable (Before m a b) :=
  decidable_of_iff _ mem_seqPairs_iff

theorem directPair_iff_mem {input : List (List Label)} {a b : Label} :
    DirectPair input a b ↔ (a, b) ∈ allDirectPairs input := by
  simp only [DirectPair, allDirectPairs, List.mem_flatten, List.mem_map]
  constructor
  · rintro ⟨s, hs, hp⟩
    exact ⟨seqPairs s, ⟨s, hs, rfl⟩, hp⟩
  · rintro ⟨_, ⟨s, hs, rfl⟩, hp⟩
    exact ⟨s, hs, hp⟩

/-- Exhibiting a rank function that increases along every direct pair proves
an input valid (this is how the concrete witnesses below discharge the
acyclicity and non-contradiction conditions). -/
theorem valid_of_ranked (input : List (List Label)) (f : Label → Nat)
    (hne : input ≠ []) (hseq : ∀ s ∈ input, s ≠ [] ∧ s.Nodup)
    (hf : ∀ p ∈ allDirectPairs input, f p.1 < f p.2) : Valid input := by
  have hlt : ∀ a b, DirectPair input a b → f a < f b := by
    intro a b h
    exact hf (a, b) (directPair_iff_mem.1 h)
  refine ⟨hne, hseq, ?_, ?_⟩
  · intro a b hab hba
    exact absurd (hlt b a hba) (Nat.not_lt.2 (Nat.le_of_lt (hlt a b hab)))
  · intro a h
    have : ∀ x y, Relation.TransGen (DirectPair input) x y → f x < f y := by
      intro x y hxy
      induction hxy with
      | single h => exact hlt _ _ h
      | tail _ h ih => exact Nat.lt_trans ih (hlt _ _ h)
    exact absurd (this a a h) (Nat.lt_irrefl _)

/-! ## Basic facts about the rules table -/

theorem hasRule_iff {r : Rules} {a b : Label} :
    hasRule r a b = true ↔ ∃ v, lookupRules r a = some v ∧ b ∈ v := by
  unfold hasRule
  cases h : lookupRules r a with
  | none => simp
  | some v => simp [List.elem_iff]

theorem lookupRules_append (r r' : Rules) (k : Label) :
    lookupRules (r ++ r') k =
      match lookupRules r k with
      | some v => some v
      | none => lookupRules r' k := by
  induction r with
  | nil => simp [lookupRules]
  | cons p rest ih =>
    obtain ⟨k', v⟩ := p
    by_cases h : k' = k <;> simp [lookupRules, h, ih]

theorem lookupRules_addSucc (r : Rules) (a b k : Label) :
    lookupRules (addSucc r a b) k =
      if k = a then (lookupRules r a).map (fun v => if b ∈ v then v else v ++ [b])
      else lookupRules r k := by
  induction r with
  | nil => simp [addSucc, lookupRules]
  | cons p rest ih =>
    obtain ⟨k', v⟩ := p
    by_cases hka : k' = a
    · subst hka
      by_cases hk : k' = k
      · subst hk
        simp [addSucc, lookupRules]
      · have : ¬ k = k' := fun h => hk h.symm
        simp [addSucc, lookupRules, hk, this]
    · by_cases hk : k' = k
      · subst hk
        simp [addSucc, lookupRules, hka]
      · simp [addSucc, lookupRules, hka, hk, ih]

theorem isSome_addSucc (r : Rules) (a b k : Label) :
    (lookupRules (addSucc r a b) k).isSome = (lookupRules r k).isSome := by
  rw [lookupRules_addSucc]
  by_cases h : k = a <;> simp [h]

theorem hasRule_addSucc_mono {r : Rules} {x y : Label} (a b : Label)
    (h : hasRule r x y = true) : hasRule (addSucc r a b) x y = true := by
  rw [hasRule_iff] at h ⊢
  obtain ⟨v, hv, hy⟩ := h
  rw [lookupRules_addSucc]
  by_cases hxa : x = a
  · subst hxa
    refine ⟨if b ∈ v then v else v ++ [b], by simp [hv], ?_⟩
    by_cases hb : b ∈ v <;> simp [hb, hy]
  · exact ⟨v, by simp [hxa, hv], hy⟩

theorem hasRule_addSucc_self {r : Rules} {a : Label} (b : Label)
    (h : (lookupRules r a).isSome) : hasRule (addSucc r a b) a b = true := by
  rw [hasRule_iff]
  rw [Option.isSome_iff_exists] at h
  obtain ⟨v, hv⟩ := h
  rw [lookupRules_addSucc]
  refine ⟨if b ∈ v then v else v ++ [b], by simp [hv], ?_⟩
  by_cases hb : b ∈ v <;> simp [hb]

theorem hasRule_addSucc_inv {r : Rules} {a b x y : Label}
    (h : hasRule (addSucc r a b) x y = true) :
    hasRule r x y = true ∨ (x = a ∧ y = b) := by
  rw [hasRule_iff] at h
  obtain ⟨v, hv, hy⟩ := h
  rw [lookupRules_addSucc] at hv
  by_cases hxa : x = a
  · subst hxa
    rw [if_pos rfl] at hv
    cases hl : lookupRules r x with
    | none => rw [hl] at hv; exact absurd hv (by simp)
    | some w =>
      rw [hl, Option.map_some'] at hv
      have hv' : (if b ∈ w then w else w ++ [b]) = v := Option.some.inj hv
      subst hv'
      by_cases hb : b ∈ w
      · rw [if_pos hb] at hy
        exact Or.inl (hasRule_iff.2 ⟨w, hl, hy⟩)
      · rw [if_neg hb] at hy
        rcases List.mem_append.1 hy with hy | hy
        · exact Or.inl (hasRule_iff.2 ⟨w, hl, hy⟩)
        · exact Or.inr ⟨rfl, List.mem_singleton.1 hy⟩
  · rw [if_neg hxa] at hv
    exact Or.inl (hasRule_iff.2 ⟨v, hv, hy⟩)

theorem addSucc_keys (r : Rules) (a b : Label) :
    (addSucc r a b).map Prod.fst = r.map Prod.fst := by
  induction r with
  | nil => simp [addSucc]
  | cons p rest ih =>
    obtain ⟨k, v⟩ := p
    by_cases h : k = a <;> simp [addSucc, h, ih]

theorem lookupRules_isSome_iff {r : Rules} {k : Label} :
    (lookupRules r k).isSome ↔ k ∈ r.map Prod.fst := by
  induction r with
  | nil => simp [lookupRules]
  | cons p rest ih =>
    obtain ⟨k', v⟩ := p
    by_cases h : k' = k
    · subst h
      simp [lookupRules]
    · have h' : ¬ k = k' := fun hh => h hh.symm
      simp [lookupRules, h, h', ih]

theorem ensureKey_of_isSome {r : Rules} {k : Label}
    (h : (lookupRules r k).isSome) : ensureKey r k = r := by
  simp [ensureKey, h]

theorem lookupRules_ensureKey_of_isSome {r : Rules} {k' : Label} (k : Label)
    (h : (lookupRules r k').isSome) :
    lookupRules (ensureKey r k) k' = lookupRules r k' := by
  unfold ensureKey
  by_cases hk : (lookupRules r k).isSome
  · rw [if_pos hk]
  · rw [if_neg hk, lookupRules_append]
    obtain ⟨v, hv⟩ := Option.isSome_iff_exists.1 h
    rw [hv]

theorem lookupRules_ensureKey_inv {r : Rules} {k k' : Label} {v : RuleSet}
    (h : lookupRules (ensureKey r k) k' = some v) :
    lookupRules r k' = some v ∨ (k' = k ∧ v = []) := by
  unfold ensureKey at h
  by_cases hk : (lookupRules r k).isSome
  · rw [if_pos hk] at h
    exact Or.inl h
  · rw [if_neg hk, lookupRules_append] at h
    cases hl : lookupRules r k' with
    | some w =>
      rw [hl] at h
      have h' : some w = some v := h
      exact Or.inl h'
    | none =>
      rw [hl] at h
      by_cases hkk : k = k'
      · subst hkk
        have h' : some ([] : RuleSet) = some v := by
          simpa [lookupRules] using h
        exact Or.inr ⟨rfl, (Option.some.inj h').symm⟩
      · simp [lookupRules, hkk] at h

theorem hasRule_ensureKey (r : Rules) (k x y : Label) :
    hasRule (ensureKey r k) x y = hasRule r x y := by
  cases hr : hasRule r x y with
  | true =>
    obtain ⟨v, hv, hy⟩ := hasRule_iff.1 hr
    exact hasRule_iff.2
      ⟨v, (lookupRules_ensureKey_of_isSome k (by simp [hv])).trans hv, hy⟩
  | false =>
    cases he : hasRule (ensureKey r k) x y with
    | false => rfl
    | true =>
      exfalso
      obtain ⟨v, hv, hy⟩ := hasRule_iff.1 he
      rcases lookupRules_ensureKey_inv hv with h | ⟨rfl, rfl⟩
      · simp [hasRule_iff.2 ⟨v, h, hy⟩] at hr
      · simp at hy

theorem isSome_ensureKey_mono {r : Rules} {k k' : Label}
    (h : (lookupRules r k').isSome) : (lookupRules (ensureKey r k) k').isSome := by
  rw [lookupRules_ensureKey_of_isSome k h]
  exact h

/-! ## The `addSucc` folds shared by `markAfter` and `mergeInto` -/

theorem isSome_ensureKey_self (r : Rules) (k : Label) :
    (lookupRules (ensureKey r k) k).isSome := by
  unfold ensureKey
  by_cases h : (lookupRules r k).isSome
  · rw [if_pos h]; exact h
  · rw [if_neg h, lookupRules_append, Option.not_isSome_iff_eq_none.1 h]
    simp [lookupRules]

theorem foldl_addSucc_mono {curr x y : Label} (ts : List Label) (r : Rules)
    (h : hasRule r x y = true) :
    hasRule (ts.foldl (fun r t => addSucc r curr t) r) x y = true := by
  induction ts generalizing r with
  | nil => exact h
  | cons t ts ih => exact ih _ (hasRule_addSucc_mono _ _ h)

theorem foldl_addSucc_isSome {curr k : Label} (ts : List Label) (r : Rules)
    (h : (lookupRules r k).isSome) :
    (lookupRules (ts.foldl (fun r t => addSucc r curr t) r) k).isSome := by
  induction ts generalizing r with
  | nil => exact h
  | cons t ts ih => exact ih _ (by rw [isSome_addSucc]; exact h)

theorem foldl_addSucc_complete {curr : Label} (ts : List Label) (r : Rules)
    (h : (lookupRules r curr).isSome) :
    ∀ t ∈ ts, hasRule (ts.foldl (fun r t => addSucc r curr t) r) curr t = true := by
  induction ts generalizing r with
  | nil => simp
  | cons t' ts ih =>
    intro t ht
    rcases List.mem_cons.1 ht with rfl | ht
    · exact foldl_addSucc_mono ts _ (hasRule_addSucc_self t h)
    · exact ih _ (by rw [isSome_addSucc]; exact h) t ht

theorem foldl_addSucc_inv {curr x y : Label} (ts : List Label) (r : Rules)
    (h : hasRule (ts.foldl (fun r t => addSucc r curr t) r) x y = true) :
    hasRule r x y = true ∨ (x = curr ∧ y ∈ ts) := by
  induction ts generalizing r with
  | nil => exact Or.inl h
  | cons t ts ih =>
    rcases ih _ h with h' | ⟨rfl, hy⟩
    · rcases hasRule_addSucc_inv h' with h'' | ⟨rfl, rfl⟩
      · exact Or.inl h''
      · exact Or.inr ⟨rfl, by simp⟩
    · exact Or.inr ⟨rfl, by simp [hy]⟩

theorem foldl_addSucc_keys {curr : Label} (ts : List Label) (r : Rules) :
    (ts.foldl (fun r t => addSucc r curr t) r).map Prod.fst = r.map Prod.fst := by
  induction ts generalizing r with
  | nil => rfl
  | cons t ts ih => rw [List.foldl_cons, ih, addSucc_keys]

theorem foldl_addSucc_lookup_ne {curr k : Label} (hk : k ≠ curr)
    (ts : List Label) (r : Rules) :
    lookupRules (ts.foldl (fun r t => addSucc r curr t) r) k = lookupRules r k := by
  induction ts generalizing r with
  | nil => rfl
  | cons t ts ih => rw [List.foldl_cons, ih, lookupRules_addSucc, if_neg hk]

/-! ## `markAfter` and `updateRules` -/

theorem markAfter_mono {x y : Label} (curr : Label) (rest : List Label) (r : Rules)
    (h : hasRule r x y = true) : hasRule (markAfter r curr rest) x y = true :=
  foldl_addSucc_mono rest _ (by rw [hasRule_ensureKey]; exact h)

theorem markAfter_complete (curr : Label) (rest : List Label) (r : Rules) :
    ∀ t ∈ rest, hasRule (markAfter r curr rest) curr t = true :=
  foldl_addSucc_complete rest _ (isSome_ensureKey_self r curr)

theorem markAfter_inv {curr x y : Label} {rest : List Label} {r : Rules}
    (h : hasRule (markAfter r curr rest) x y = true) :
    hasRule r x y = true ∨ (x = curr ∧ y ∈ rest) := by
  rcases foldl_addSucc_inv rest _ h with h' | h'
  · rw [hasRule_ensureKey] at h'
    exact Or.inl h'
  · exact Or.inr h'

theorem ensureKey_keys_nodup {r : Rules} (k : Label)
    (h : (r.map Prod.fst).Nodup) : ((ensureKey r k).map Prod.fst).Nodup := by
  unfold ensureKey
  by_cases hs : (lookupRules r k).isSome
  · rw [if_pos hs]
    exact h
  · rw [if_neg hs, List.map_append]
    have hk : k ∉ r.map Prod.fst := fun hm => hs (lookupRules_isSome_iff.2 hm)
    simp [List.nodup_append, h, hk]

theorem markAfter_keys_nodup {r : Rules} (curr : Label) (rest : List Label)
    (h : (r.map Prod.fst).Nodup) :
    ((markAfter r curr rest).map Prod.fst).Nodup := by
  unfold markAfter
  rw [foldl_addSucc_keys]
  exact ensureKey_keys_nodup curr h

theorem updateRulesAux_mono {x y : Label} (arr : List Label) (r : Rules)
    (h : hasRule r x y = true) : hasRule (updateRulesAux arr r) x y = true := by
  induction arr generalizing r with
  | nil => exact h
  | cons curr rest ih =>
    cases rest with
    | nil => exact h
    | cons next rest' => exact ih _ (markAfter_mono curr _ r h)

theorem updateRulesAux_complete {a b : Label} (arr : List Label) (r : Rules)
    (h : (a, b) ∈ seqPairs arr) :
    hasRule (updateRulesAux arr r) a b = true := by
  induction arr generalizing r with
  | nil => simp [seqPairs] at h
  | cons curr rest ih =>
    cases rest with
    | nil => simp [seqPairs] at h
    | cons next rest' =>
      rw [seqPairs] at h
      rcases List.mem_append.1 h with h | h
      · obtain ⟨t, ht, heq⟩ := List.mem_map.1 h
        cases heq
        exact updateRulesAux_mono (next :: rest') _
          (markAfter_complete a _ r _ ht)
      · exact ih _ h

theorem updateRulesAux_inv {x y : Label} (arr : List Label) (r : Rules)
    (h : hasRule (updateRulesAux arr r) x y = true) :
    hasRule r x y = true ∨ (x, y) ∈ seqPairs arr := by
  induction arr generalizing r with
  | nil => exact Or.inl h
  | cons curr rest ih =>
    cases rest with
    | nil => exact Or.inl h
    | cons next rest' =>
      rcases ih _ h with h' | h'
      · rcases markAfter_inv h' with h'' | ⟨rfl, hy⟩
        · exact Or.inl h''
        · refine Or.inr ?_
          rw [seqPairs]
          exact List.mem_append.2 (Or.inl (List.mem_map.2 ⟨y, hy, rfl⟩))
      · refine Or.inr ?_
        rw [seqPairs]
        exact List.mem_append.2 (Or.inr h')

theorem updateRulesAux_keys_nodup (arr : List Label) (r : Rules)
    (h : (r.map Prod.fst).Nodup) :
    ((updateRulesAux arr r).map Prod.fst).Nodup := by
  induction arr generalizing r with
  | nil => exact h
  | cons curr rest ih =>
    cases rest with
    | nil => exact h
    | cons next rest' => exact ih _ (markAfter_keys_nodup curr _ h)

theorem seqPairs_eq_nil_of_short {arr : List Label} (h : arr.length ≤ 1) :
    seqPairs arr = [] := by
  match arr, h with
  | [], _ => rfl
  | [x], _ => simp [seqPairs]

theorem updateRules_mono {x y : Label} (arr : List Label) (r : Rules)
    (h : hasRule r x y = true) : hasRule (updateRules arr r) x y = true := by
  unfold updateRules
  split
  · exact h
  · exact updateRulesAux_mono arr r h

theorem updateRules_complete {a b : Label} (arr : List Label) (r : Rules)
    (h : (a, b) ∈ seqPairs arr) :
    hasRule (updateRules arr r) a b = true := by
  unfold updateRules
  split
  · rename_i hlen
    rw [seqPairs_eq_nil_of_short hlen] at h
    simp at h
  · exact updateRulesAux_complete arr r h

theorem updateRules_inv {x y : Label} (arr : List Label) (r : Rules)
    (h : hasRule (updateRules arr r) x y = true) :
    hasRule r x y = true ∨ (x, y) ∈ seqPairs arr := by
  unfold updateRules at h
  split at h
  · exact Or.inl h
  · exact updateRulesAux_inv arr r h

theorem updateRules_keys_nodup (arr : List Label) (r : Rules)
    (h : (r.map Prod.fst).Nodup) :
    ((updateRules arr r).map Prod.fst).Nodup := by
  unfold updateRules
  split
  · exact h
  · exact updateRulesAux_keys_nodup arr r h

/-! ## The collected per-sequence rules -/

/-- The rules table after the first phase of `getMasterRules` (all
`updateRules` calls, before the merge pass). -/
def collectRules (input : List (List Label)) : Rules :=
  input.foldl (fun r arr => updateRules arr r) []

theorem getMasterRules_eq (input : List (List Label)) :
    getMasterRules input =
      ((collectRules input).map Prod.fst).foldl mergeStep (collectRules input) := rfl

theorem foldl_updateRules_mono {x y : Label} (input : List (List Label)) (r : Rules)
    (h : hasRule r x y = true) :
    hasRule (input.foldl (fun r arr => updateRules arr r) r) x y = true := by
  induction input generalizing r with
  | nil => exact h
  | cons arr input ih => exact ih _ (updateRules_mono arr r h)

theorem foldl_updateRules_inv {x y : Label} (input : List (List Label)) (r : Rules)
    (h : hasRule (input.foldl (fun r arr => updateRules arr r) r) x y = true) :
    hasRule r x y = true ∨ ∃ s ∈ input, (x, y) ∈ seqPairs s := by
  induction input generalizing r with
  | nil => exact Or.inl h
  | cons arr input ih =>
    rcases ih _ h with h' | ⟨s, hs, hp⟩
    · rcases updateRules_inv arr r h' with h'' | h''
      · exact Or.inl h''
      · exact Or.inr ⟨arr, by simp, h''⟩
    · exact Or.inr ⟨s, by simp [hs], hp⟩

theorem collectRules_complete {input : List (List Label)} {a b : Label}
    (h : DirectPair input a b) : hasRule (collectRules input) a b = true := by
  obtain ⟨s, hs, hp⟩ := h
  unfold collectRules
  obtain ⟨l₁, l₂, rfl⟩ := List.append_of_mem hs
  rw [List.foldl_append, List.foldl_cons]
  exact foldl_updateRules_mono l₂ _ (updateRules_complete s _ hp)

theorem collectRules_sound {input : List (List Label)} {x y : Label}
    (h : hasRule (collectRules input) x y = true) : DirectPair input x y := by
  rcases foldl_updateRules_inv input [] h with h' | h'
  · simp [hasRule, lookupRules] at h'
  · exact h'

theorem collectRules_keys_nodup (input : List (List Label)) :
    ((collectRules input).map Prod.fst).Nodup := by
  unfold collectRules
  have : ∀ r : Rules, (r.map Prod.fst).Nodup →
      ((input.foldl (fun r arr => updateRules arr r) r).map Prod.fst).Nodup := by
    induction input with
    | nil => exact fun r h => h
    | cons arr input ih => exact fun r h => ih _ (updateRules_keys_nodup arr r h)
  exact this [] (by simp)

/-! ## The merge pass -/

theorem hasRule_of_mem_getD {r : Rules} {k s : Label}
    (h : s ∈ (lookupRules r k).getD []) : hasRule r k s = true := by
  cases hl : lookupRules r k with
  | none => rw [hl] at h; simp at h
  | some v => exact hasRule_iff.2 ⟨v, hl, by rwa [hl] at h⟩

theorem mem_getD_of_hasRule {r : Rules} {k s : Label}
    (h : hasRule r k s = true) : s ∈ (lookupRules r k).getD [] := by
  obtain ⟨v, hv, hs⟩ := hasRule_iff.1 h
  rw [hv]
  exact hs

theorem mergeInto_mono {rule x y : Label} (src : RuleSet) (r : Rules)
    (h : hasRule r x y = true) : hasRule (mergeInto r rule src) x y = true :=
  foldl_addSucc_mono src r h

theorem mergeInto_isSome {rule k : Label} (src : RuleSet) (r : Rules)
    (h : (lookupRules r k).isSome) :
    (lookupRules (mergeInto r rule src) k).isSome :=
  foldl_addSucc_isSome src r h

theorem mergeInto_complete {rule : Label} (src : RuleSet) (r : Rules)
    (h : (lookupRules r rule).isSome) :
    ∀ s ∈ src, hasRule (mergeInto r rule src) rule s = true :=
  foldl_addSucc_complete src r h

theorem mergeInto_inv {rule x y : Label} {src : RuleSet} {r : Rules}
    (h : hasRule (mergeInto r rule src) x y = true) :
    hasRule r x y = true ∨ (x = rule ∧ y ∈ src) :=
  foldl_addSucc_inv src r h

theorem mergeInto_lookup_ne {rule k : Label} (hk : k ≠ rule) (src : RuleSet)
    (r : Rules) : lookupRules (mergeInto r rule src) k = lookupRules r k :=
  foldl_addSucc_lookup_ne hk src r

theorem mergeStep_def (r : Rules) (rule : Label) :
    mergeStep r rule = ((lookupRules r rule).getD []).foldl
      (fun r key => mergeInto r rule ((lookupRules r key).getD [])) r := rfl

theorem foldl_mergeInto_mono {rule x y : Label} (keys : List Label) (r : Rules)
    (h : hasRule r x y = true) :
    hasRule (keys.foldl
      (fun r key => mergeInto r rule ((lookupRules r key).getD [])) r) x y = true := by
  induction keys generalizing r with
  | nil => exact h
  | cons key keys ih => exact ih _ (mergeInto_mono _ _ h)

theorem foldl_mergeInto_isSome {rule k : Label} (keys : List Label) (r : Rules)
    (h : (lookupRules r k).isSome) :
    (lookupRules (keys.foldl
      (fun r key => mergeInto r rule ((lookupRules r key).getD [])) r) k).isSome := by
  induction keys generalizing r with
  | nil => exact h
  | cons key keys ih => exact ih _ (mergeInto_isSome _ _ h)

theorem foldl_mergeInto_lookup_ne {rule k : Label} (hk : k ≠ rule)
    (keys : List Label) (r : Rules) :
    lookupRules (keys.foldl
      (fun r key => mergeInto r rule ((lookupRules r key).getD [])) r) k
      = lookupRules r k := by
  induction keys generalizing r with
  | nil => rfl
  | cons key keys ih => rw [List.foldl_cons, ih, mergeInto_lookup_ne hk]

theorem mergeStep_mono {rule x y : Label} (r : Rules)
    (h : hasRule r x y = true) : hasRule (mergeStep r rule) x y = true := by
  rw [mergeStep_def]
  exact foldl_mergeInto_mono _ _ h

theorem mergeStep_lookup_ne {rule k : Label} (hk : k ≠ rule) (r : Rules) :
    lookupRules (mergeStep r rule) k = lookupRules r k := by
  rw [mergeStep_def]
  exact foldl_mergeInto_lookup_ne hk _ _

theorem foldl_mergeStep_mono {x y : Label} (ks : List Label) (r : Rules)
    (h : hasRule r x y = true) :
    hasRule (ks.foldl mergeStep r) x y = true := by
  induction ks generalizing r with
  | nil => exact h
  | cons k ks ih => exact ih _ (mergeStep_mono _ h)

theorem foldl_mergeStep_lookup_notin {k : Label} (ks : List Label) (r : Rules)
    (hk : k ∉ ks) : lookupRules (ks.foldl mergeStep r) k = lookupRules r k := by
  induction ks generalizing r with
  | nil => rfl
  | cons k' ks ih =>
    have hk1 : k ∉ ks := fun h => hk (List.mem_cons.2 (Or.inr h))
    have hk2 : k ≠ k' := fun h => hk (List.mem_cons.2 (Or.inl h))
    rw [List.foldl_cons, ih _ hk1, mergeStep_lookup_ne hk2]

/-- Every rule recorded by `getMasterRules` contains all direct pairwise
rules: the merge pass only ever adds entries. -/
theorem masterRules_complete {input : List (List Label)} {a b : Label}
    (h : DirectPair input a b) : hasRule (getMasterRules input) a b = true := by
  rw [getMasterRules_eq]
  exact foldl_mergeStep_mono _ _ (collectRules_complete h)

theorem mergeInto_sound {rule : Label} {src : RuleSet} {r : Rules}
    {TC : Label → Label → Prop}
    (hr : ∀ x y, hasRule r x y = true → TC x y)
    (hsrc : ∀ s ∈ src, TC rule s) :
    ∀ x y, hasRule (mergeInto r rule src) x y = true → TC x y := by
  intro x y h
  rcases mergeInto_inv h with h' | ⟨rfl, hy⟩
  · exact hr x y h'
  · exact hsrc y hy

theorem foldl_mergeInto_sound {rule : Label} {TC : Label → Label → Prop}
    (htrans : ∀ a b c, TC a b → TC b c → TC a c)
    (keys : List Label) (r : Rules)
    (hkeys : ∀ key ∈ keys, TC rule key)
    (hr : ∀ x y, hasRule r x y = true → TC x y) :
    ∀ x y, hasRule (keys.foldl
      (fun r key => mergeInto r rule ((lookupRules r key).getD [])) r) x y = true →
      TC x y := by
  induction keys generalizing r with
  | nil => exact hr
  | cons key keys ih =>
    refine ih _ (fun k hk => hkeys k (by simp [hk])) ?_
    refine mergeInto_sound hr ?_
    intro s hs
    exact htrans _ _ _ (hkeys key (by simp)) (hr _ _ (hasRule_of_mem_getD hs))

theorem mergeStep_sound {rule : Label} {r : Rules} {TC : Label → Label → Prop}
    (htrans : ∀ a b c, TC a b → TC b c → TC a c)
    (hr : ∀ x y, hasRule r x y = true → TC x y) :
    ∀ x y, hasRule (mergeStep r rule) x y = true → TC x y := by
  intro x y h
  rw [mergeStep_def] at h
  refine foldl_mergeInto_sound htrans _ r ?_ hr x y h
  intro key hk
  exact hr _ _ (hasRule_of_mem_getD hk)

theorem foldl_mergeStep_sound {TC : Label → Label → Prop}
    (htrans : ∀ a b c, TC a b → TC b c → TC a c)
    (ks : List Label) (r : Rules)
    (hr : ∀ x y, hasRule r x y = true → TC x y) :
    ∀ x y, hasRule (ks.foldl mergeStep r) x y = true → TC x y := by
  induction ks generalizing r with
  | nil => exact hr
  | cons k ks ih => exact ih _ (mergeStep_sound htrans hr)

/-- Every pair recorded by `getMasterRules` is a transitive consequence of
the direct pairwise rules. -/
theorem masterRules_sound {input : List (List Label)} {x y : Label}
    (h : hasRule (getMasterRules input) x y = true) :
    Relation.TransGen (DirectPair input) x y := by
  rw [getMasterRules_eq] at h
  refine foldl_mergeStep_sound ?_ _ _ ?_ x y h
  · exact fun a b c hab hbc => hab.trans hbc
  · exact fun a b hab => Relation.TransGen.single (collectRules_sound hab)

/-- The merge pass does compose two direct rules: when `a` directly precedes
`b` in some sequence and `b` directly precedes `c` in some sequence, the
master table records `a` before `c` (when key `a` is merged, `b` is in its
snapshot and `b`'s set already holds `c`). -/
theorem masterRules_two_step {input : List (List Label)} {a b c : Label}
    (h1 : DirectPair input a b) (h2 : DirectPair input b c) :
    hasRule (getMasterRules input) a c = true := by
  rw [getMasterRules_eq]
  have hab : hasRule (collectRules input) a b = true := collectRules_complete h1
  have hbc : hasRule (collectRules input) b c = true := collectRules_complete h2
  obtain ⟨va, hva, hbva⟩ := hasRule_iff.1 hab
  have hmem : a ∈ (collectRules input).map Prod.fst :=
    lookupRules_isSome_iff.1 (by simp [hva])
  obtain ⟨K₁, K₂, hK⟩ := List.append_of_mem hmem
  have hnd : ((collectRules input).map Prod.fst).Nodup := collectRules_keys_nodup input
  have haK₁ : a ∉ K₁ := by
    rw [hK] at hnd
    rcases List.nodup_append.1 hnd with ⟨_, _, hdisj⟩
    intro hmem1
    exact hdisj hmem1 (by simp)
  rw [hK, List.foldl_append, List.foldl_cons]
  have hlook : lookupRules (K₁.foldl mergeStep (collectRules input)) a
      = lookupRules (collectRules input) a :=
    foldl_mergeStep_lookup_notin K₁ _ haK₁
  have hbc₁ : hasRule (K₁.foldl mergeStep (collectRules input)) b c = true :=
    foldl_mergeStep_mono K₁ _ hbc
  refine foldl_mergeStep_mono K₂ _ ?_
  rw [mergeStep_def, hlook, hva]
  show hasRule (va.foldl
    (fun r key => mergeInto r a ((lookupRules r key).getD []))
    (K₁.foldl mergeStep (collectRules input))) a c = true
  obtain ⟨S₁, S₂, hS⟩ := List.append_of_mem hbva
  rw [hS, List.foldl_append, List.foldl_cons]
  refine foldl_mergeInto_mono S₂ _ ?_
  have hbc₂ : hasRule (S₁.foldl
      (fun r key => mergeInto r a ((lookupRules r key).getD []))
      (K₁.foldl mergeStep (collectRules input))) b c = true :=
    foldl_mergeInto_mono S₁ _ hbc₁
  have hsome : (lookupRules (S₁.foldl
      (fun r key => mergeInto r a ((lookupRules r key).getD []))
      (K₁.foldl mergeStep (collectRules input))) a).isSome := by
    refine foldl_mergeInto_isSome S₁ _ ?_
    rw [hlook, hva]
    rfl
  exact mergeInto_complete _ _ hsome c (mem_getD_of_hasRule hbc₂)

/-! ## The `uniq` table -/

theorem mem_foldl_uniqAdd (arr acc : List Label) (x : Label) :
    (x ∈ arr.foldl (fun a e => if e ∈ a then a else a ++ [e]) acc) ↔
      x ∈ acc ∨ x ∈ arr := by
  induction arr generalizing acc with
  | nil => simp
  | cons e arr ih =>
    rw [List.foldl_cons]
    by_cases he : e ∈ acc
    · rw [if_pos he, ih]
      constructor
      · rintro (h | h)
        · exact Or.inl h
        · exact Or.inr (List.mem_cons.2 (Or.inr h))
      · rintro (h | h)
        · exact Or.inl h
        · rcases List.mem_cons.1 h with rfl | h
          · exact Or.inl he
          · exact Or.inr h
    · rw [if_neg he, ih]
      simp [List.mem_append, List.mem_cons, or_assoc]

theorem mem_getUniq_iff {input : List (List Label)} {x : Label} :
    x ∈ getUniq input ↔ ∃ s ∈ input, x ∈ s := by
  unfold getUniq
  have key : ∀ acc : List Label,
      (x ∈ input.foldl
        (fun acc arr => arr.foldl (fun a e => if e ∈ a then a else a ++ [e]) acc) acc) ↔
      x ∈ acc ∨ ∃ s ∈ input, x ∈ s := by
    induction input with
    | nil => simp
    | cons arr input ih =>
      intro acc
      rw [List.foldl_cons, ih, mem_foldl_uniqAdd]
      constructor
      · rintro ((h | h) | h)
        · exact Or.inl h
        · exact Or.inr ⟨arr, by simp, h⟩
        · obtain ⟨s, hs, hx⟩ := h
          exact Or.inr ⟨s, by simp [hs], hx⟩
      · rintro (h | ⟨s, hs, hx⟩)
        · exact Or.inl (Or.inl h)
        · rcases List.mem_cons.1 hs with rfl | hs
          · exact Or.inl (Or.inr hx)
          · exact Or.inr ⟨s, hs, hx⟩
  simpa using key []

theorem foldl_uniqAdd_nodup (arr : List Label) (acc : List Label)
    (h : acc.Nodup) :
    (arr.foldl (fun a e => if e ∈ a then a else a ++ [e]) acc).Nodup := by
  induction arr generalizing acc with
  | nil => exact h
  | cons e arr ih =>
    rw [List.foldl_cons]
    by_cases he : e ∈ acc
    · rw [if_pos he]
      exact ih _ h
    · rw [if_neg he]
      refine ih _ ?_
      simp [List.nodup_append, h, he]

theorem getUniq_nodup (input : List (List Label)) : (getUniq input).Nodup := by
  unfold getUniq
  have key : ∀ acc : List Label, acc.Nodup →
      (input.foldl
        (fun acc arr => arr.foldl (fun a e => if e ∈ a then a else a ++ [e]) acc)
        acc).Nodup := by
    induction input with
    | nil => exact fun acc h => h
    | cons arr input ih => exact fun acc h => ih _ (foldl_uniqAdd_nodup arr acc h)
  exact key [] (by simp)

/-! ## The sort returns a permutation -/

theorem insertAt_perm (l : List Label) (pos : Nat) (x : Label) :
    (insertAt l pos x).Perm (x :: l) := by
  unfold insertAt
  have h1 : (l.take pos ++ x :: l.drop pos).Perm (x :: (l.take pos ++ l.drop pos)) :=
    List.perm_middle
  rwa [List.take_append_drop] at h1

theorem binaryInsertLoop_perm (c : Label → Label → Int)
    (pending sorted : List Label) :
    (binaryInsertLoop c sorted pending).Perm (sorted ++ pending) := by
  induction pending generalizing sorted with
  | nil => simp [binaryInsertLoop]
  | cons x xs ih =>
    rw [binaryInsertLoop]
    refine (ih _).trans ?_
    refine ((insertAt_perm ..).append_right xs).trans ?_
    exact List.perm_middle.symm

theorem jsSort_perm (c : Label → Label → Int) (l : List Label) :
    (jsSort c l).Perm l := by
  match l with
  | [] => simp [jsSort]
  | [x] => simp [jsSort]
  | x :: y :: rest =>
    have key : ∀ (A : List Label) (n : Nat), A.Perm (x :: y :: rest) →
        (binaryInsertLoop c (A.take n) (A.drop n)).Perm (x :: y :: rest) := by
      intro A n hA
      refine (binaryInsertLoop_perm ..).trans ?_
      rw [List.take_append_drop]
      exact hA
    simp only [jsSort]
    split
    · refine key _ _ ?_
      refine ((List.reverse_perm _).append_right _).trans ?_
      rw [List.take_append_drop]
    · exact key _ _ (List.Perm.refl _)

theorem preserveOrder_perm (input : List (List Label)) :
    (preserveOrder input).Perm (getUniq input) :=
  jsSort_perm ..

/-! ## Index helpers for the sort proofs -/

theorem getD_mem {m : List Label} {k : Nat} (h : k < m.length) :
    m.getD k "" ∈ m := by
  rw [List.getD_eq_getElem _ _ h]
  exact List.getElem_mem h

theorem pairwise_getD {R : Label → Label → Prop} {m : List Label}
    (h : m.Pairwise R) {i j : Nat} (hij : i < j) (hj : j < m.length) :
    R (m.getD i "") (m.getD j "") := by
  have hi : i < m.length := Nat.lt_trans hij hj
  rw [List.getD_eq_getElem _ _ hi, List.getD_eq_getElem _ _ hj]
  exact List.pairwise_iff_getElem.1 h i j hi hj hij

theorem pairwise_of_getD {R : Label → Label → Prop} {m : List Label}
    (h : ∀ i j, i < j → j < m.length → R (m.getD i "") (m.getD j "")) :
    m.Pairwise R := by
  rw [List.pairwise_iff_getElem]
  intro i j hi hj hij
  have hr := h i j hij hj
  rwa [List.getD_eq_getElem _ _ hi, List.getD_eq_getElem _ _ hj] at hr

theorem getD_take {l : List Label} {n k : Nat} (h : k < n) (hk : k < l.length) :
    (l.take n).getD k "" = l.getD k "" := by
  have hlen : k < (l.take n).length := by
    simp only [List.length_take]
    omega
  rw [List.getD_eq_getElem _ _ hlen, List.getD_eq_getElem _ _ hk]
  exact List.getElem_take l

theorem getD_drop (l : List Label) (n k : Nat) :
    (l.drop n).getD k "" = l.getD (n + k) "" := by
  by_cases h : n + k < l.length
  · have hlen : k < (l.drop n).length := by
      simp only [List.length_drop]
      omega
    rw [List.getD_eq_getElem _ _ hlen, List.getD_eq_getElem _ _ h]
    simp only [List.getElem_drop]
  · have h1 : (l.drop n).length ≤ k := by
      simp only [List.length_drop]
      omega
    rw [List.getD_eq_default _ _ h1, List.getD_eq_default _ _ (by omega)]

/-! ## The binary search invariant -/

theorem bsearchAux_spec (c : Label → Label → Int) (a : List Label)
    (pivot : Label) (hsorted : a.Pairwise (fun u v => c u v < 0))
    (htr : ∀ u ∈ a, ∀ v ∈ a, c pivot u < 0 → c u v < 0 → c pivot v < 0)
    (htr2 : ∀ u ∈ a, ∀ v ∈ a, 0 ≤ c pivot v → c u v < 0 → 0 ≤ c pivot u) :
    ∀ (fuel left right : Nat), right - left ≤ fuel → left ≤ right →
      right ≤ a.length →
      (∀ k, k < left → 0 ≤ c pivot (a.getD k "")) →
      (∀ k, right ≤ k → k < a.length → c pivot (a.getD k "") < 0) →
      left ≤ bsearchAux c a pivot fuel left right ∧
      bsearchAux c a pivot fuel left right ≤ right ∧
      (∀ k, k < bsearchAux c a pivot fuel left right →
        0 ≤ c pivot (a.getD k "")) ∧
      (∀ k, bsearchAux c a pivot fuel left right ≤ k → k < a.length →
        c pivot (a.getD k "") < 0) := by
  intro fuel
  induction fuel with
  | zero =>
    intro left right hfuel hlr hr hl hrt
    have heq : left = right := by omega
    rw [bsearchAux]
    refine ⟨Nat.le_refl _, hlr, hl, ?_⟩
    intro k hk hklen
    exact hrt k (by omega) hklen
  | succ fuel ih =>
    intro left right hfuel hlr hr hl hrt
    rw [bsearchAux]
    split
    case isTrue h =>
      have hmidlt : left + (right - left) / 2 < right := by
        have hdiv : (right - left) / 2 < right - left :=
          Nat.div_lt_self (by omega) (by omega)
        omega
      have hmidlen : left + (right - left) / 2 < a.length :=
        Nat.lt_of_lt_of_le hmidlt hr
      dsimp only
      split
      case isTrue hc =>
        have hrt' : ∀ k, left + (right - left) / 2 ≤ k → k < a.length →
            c pivot (a.getD k "") < 0 := by
          intro k hk hklen
          rcases Nat.eq_or_lt_of_le hk with heq | hk'
          · rw [← heq]
            exact hc
          · exact htr _ (getD_mem hmidlen) _ (getD_mem hklen) hc
              (pairwise_getD hsorted hk' hklen)
        have hrec := ih left (left + (right - left) / 2) (by omega) (by omega)
          (by omega) hl hrt'
        exact ⟨hrec.1, by omega, hrec.2.2.1, hrec.2.2.2⟩
      case isFalse hc =>
        have h0 : 0 ≤ c pivot (a.getD (left + (right - left) / 2) "") := by
          omega
        have hl' : ∀ k, k < left + (right - left) / 2 + 1 →
            0 ≤ c pivot (a.getD k "") := by
          intro k hk
          rcases Nat.lt_succ_iff_lt_or_eq.1 hk with hk' | heq
          · exact htr2 _ (getD_mem (Nat.lt_trans hk' hmidlen)) _
              (getD_mem hmidlen) h0 (pairwise_getD hsorted hk' hmidlen)
          · rw [heq]
            exact h0
        have hrec := ih (left + (right - left) / 2 + 1) right (by omega)
          (by omega) hr hl' hrt
        exact ⟨by omega, hrec.2.1, hrec.2.2.1, hrec.2.2.2⟩
    case isFalse h =>
      refine ⟨Nat.le_refl _, hlr, hl, ?_⟩
      intro k hk hklen
      exact hrt k (by omega) hklen

theorem bsearch_spec (c : Label → Label → Int) (a : List Label) (pivot : Label)
    (hsorted : a.Pairwise (fun u v => c u v < 0))
    (htr : ∀ u ∈ a, ∀ v ∈ a, c pivot u < 0 → c u v < 0 → c pivot v < 0)
    (htr2 : ∀ u ∈ a, ∀ v ∈ a, 0 ≤ c pivot v → c u v < 0 → 0 ≤ c pivot u)
    (left right : Nat) (hlr : left ≤ right) (hr : right ≤ a.length)
    (hl : ∀ k, k < left → 0 ≤ c pivot (a.getD k ""))
    (hrt : ∀ k, right ≤ k → k < a.length → c pivot (a.getD k "") < 0) :
    left ≤ bsearch c a pivot left right ∧
    bsearch c a pivot left right ≤ right ∧
    (∀ k, k < bsearch c a pivot left right → 0 ≤ c pivot (a.getD k "")) ∧
    (∀ k, bsearch c a pivot left right ≤ k → k < a.length →
      c pivot (a.getD k "") < 0) :=
  bsearchAux_spec c a pivot hsorted htr htr2 (right - left) left right
    (Nat.le_refl _) hlr hr hl hrt

/-! ## Insertion preserves sortedness -/

theorem length_insertAt (l : List Label) (pos : Nat) (x : Label)
    (h : pos ≤ l.length) : (insertAt l pos x).length = l.length + 1 := by
  unfold insertAt
  simp only [List.length_append, List.length_take, List.length_cons,
    List.length_drop]
  omega

theorem getD_insertAt (l : List Label) (pos : Nat) (x : Label)
    (hpos : pos ≤ l.length) (k : Nat) :
    (insertAt l pos x).getD k "" =
      if k < pos then l.getD k ""
      else if k = pos then x
      else l.getD (k - 1) "" := by
  unfold insertAt
  have hlt : (l.take pos).length = pos := by
    simp only [List.length_take]
    omega
  by_cases h1 : k < pos
  · rw [if_pos h1, List.getD_append _ _ _ _ (by omega)]
    exact getD_take h1 (by omega)
  · rw [if_neg h1, List.getD_append_right _ _ _ _ (by omega), hlt]
    by_cases h2 : k = pos
    · rw [if_pos h2, h2, Nat.sub_self]
      rfl
    · rw [if_neg h2]
      have hk1 : 1 ≤ k - pos := by omega
      have hstep : (x :: l.drop pos).getD (k - pos) "" =
          (l.drop pos).getD (k - pos - 1) "" := by
        have : k - pos = (k - pos - 1) + 1 := by omega
        rw [this]
        rfl
      rw [hstep, getD_drop]
      have harg : pos + (k - pos - 1) = k - 1 := by omega
      rw [harg]

theorem insertAt_pairwise {R : Label → Label → Prop} {m : List Label}
    {x : Label} {pos : Nat} (hpos : pos ≤ m.length) (hp : m.Pairwise R)
    (hbefore : ∀ k, k < pos → R (m.getD k "") x)
    (hafter : ∀ k, pos ≤ k → k < m.length → R x (m.getD k "")) :
    (insertAt m pos x).Pairwise R := by
  refine pairwise_of_getD ?_
  intro i j hij hj
  rw [length_insertAt _ _ _ hpos] at hj
  rw [getD_insertAt _ _ _ hpos, getD_insertAt _ _ _ hpos]
  by_cases hi1 : i < pos
  · rw [if_pos hi1]
    by_cases hj1 : j < pos
    · rw [if_pos hj1]
      exact pairwise_getD hp hij (by omega)
    · rw [if_neg hj1]
      by_cases hj2 : j = pos
      · rw [if_pos hj2]
        exact hbefore i hi1
      · rw [if_neg hj2]
        exact pairwise_getD hp (by omega) (by omega)
  · rw [if_neg hi1]
    have hj1 : ¬ j < pos := by omega
    have hj2 : ¬ j = pos := by omega
    rw [if_neg hj1, if_neg hj2]
    by_cases hi2 : i = pos
    · rw [if_pos hi2]
      exact hafter (j - 1) (by omega) (by omega)
    · rw [if_neg hi2]
      exact pairwise_getD hp (by omega) (by omega)

/-! ## Run detection produces a sorted prefix -/

theorem countRunAux_le (c : Label → Label → Int) (isDesc : Bool)
    (prev : Label) (xs : List Label) :
    countRunAux c isDesc prev xs ≤ xs.length := by
  induction xs generalizing prev with
  | nil => simp [countRunAux]
  | cons z zs ih =>
    have hz := ih z
    cases isDesc <;> by_cases h : c z prev < 0 <;>
      simp [countRunAux, h] <;> omega

theorem countRunAux_chain_asc (c : Label → Label → Int) (prev : Label)
    (xs : List Label) :
    List.Chain' (fun u v => ¬ c v u < 0)
      (prev :: xs.take (countRunAux c false prev xs)) := by
  induction xs generalizing prev with
  | nil => simp [countRunAux]
  | cons z zs ih =>
    by_cases h : c z prev < 0
    · have hcnt : countRunAux c false prev (z :: zs) = 0 := by
        simp [countRunAux, h]
      rw [hcnt]
      simp
    · have hcnt : countRunAux c false prev (z :: zs)
          = 1 + countRunAux c false z zs := by
        simp [countRunAux, h]
      rw [hcnt, Nat.add_comm, List.take_succ_cons, List.chain'_cons]
      exact ⟨h, ih z⟩

theorem countRunAux_chain_desc (c : Label → Label → Int) (prev : Label)
    (xs : List Label) :
    List.Chain' (fun u v => c v u < 0)
      (prev :: xs.take (countRunAux c true prev xs)) := by
  induction xs generalizing prev with
  | nil => simp [countRunAux]
  | cons z zs ih =>
    by_cases h : c z prev < 0
    · have hcnt : countRunAux c true prev (z :: zs)
          = 1 + countRunAux c true z zs := by
        simp [countRunAux, h]
      rw [hcnt, Nat.add_comm, List.take_succ_cons, List.chain'_cons]
      exact ⟨h, ih z⟩
    · have hcnt : countRunAux c true prev (z :: zs) = 0 := by
        simp [countRunAux, h]
      rw [hcnt]
      simp

theorem chain_imp_of_nodup {S T : Label → Label → Prop} :
    ∀ m : List Label, m.Nodup → m.Chain' S →
      (∀ u ∈ m, ∀ v ∈ m, u ≠ v → S u v → T u v) → m.Chain' T := by
  intro m
  induction m with
  | nil =>
    intro _ _ _
    simp
  | cons u m ih =>
    intro hnd hch himp
    cases m with
    | nil => simp
    | cons v m' =>
      rw [List.chain'_cons] at hch ⊢
      have hnd' := List.nodup_cons.1 hnd
      have hne : u ≠ v := fun he => hnd'.1 (by rw [he]; exact List.mem_cons_self ..)
      refine ⟨himp u (by simp) v (by simp) hne hch.1, ?_⟩
      exact ih hnd'.2 hch.2
        (fun a ha b hb hne' hS => himp a (by simp [ha]) b (by simp [hb]) hne' hS)

theorem chain_pairwise_of_total (c : Label → Label → Int) (L : List Label)
    (htot : ∀ a ∈ L, ∀ b ∈ L, a ≠ b → (c a b < 0 ↔ ¬ c b a < 0))
    (htrans : ∀ a ∈ L, ∀ b ∈ L, ∀ d ∈ L, c a b < 0 → c b d < 0 → c a d < 0) :
    ∀ m : List Label, m.Nodup → (∀ u ∈ m, u ∈ L) →
      m.Chain' (fun u v => ¬ c v u < 0) →
      m.Pairwise (fun u v => c u v < 0) := by
  intro m
  induction m with
  | nil =>
    intro _ _ _
    exact List.Pairwise.nil
  | cons u m ih =>
    intro hnd hsub hch
    cases m with
    | nil => simp
    | cons v m' =>
      rw [List.chain'_cons] at hch
      have hnd' := List.nodup_cons.1 hnd
      have hpw := ih hnd'.2 (fun w hw => hsub w (by simp [hw])) hch.2
      have huL : u ∈ L := hsub u (by simp)
      have hvL : v ∈ L := hsub v (by simp)
      have hne : u ≠ v := fun he => hnd'.1 (by rw [he]; exact List.mem_cons_self ..)
      have huv : c u v < 0 := (htot u huL v hvL hne).2 hch.1
      refine List.pairwise_cons.2 ⟨?_, hpw⟩
      intro w hw
      rcases List.mem_cons.1 hw with rfl | hw'
      · exact huv
      · have hvw : c v w < 0 := (List.pairwise_cons.1 hpw).1 w hw'
        exact htrans u huL v hvL w (hsub w (by simp [hw'])) huv hvw

/-! ## Binary insertion preserves sortedness -/

theorem binaryInsertLoop_pairwise (c : Label → Label → Int) (L : List Label)
    (htot : ∀ a ∈ L, ∀ b ∈ L, a ≠ b → (c a b < 0 ↔ ¬ c b a < 0))
    (htrans : ∀ a ∈ L, ∀ b ∈ L, ∀ d ∈ L, c a b < 0 → c b d < 0 → c a d < 0) :
    ∀ (pending sorted : List Label), (sorted ++ pending).Nodup →
      (∀ u ∈ sorted ++ pending, u ∈ L) →
      sorted.Pairwise (fun u v => c u v < 0) →
      (binaryInsertLoop c sorted pending).Pairwise (fun u v => c u v < 0) := by
  intro pending
  induction pending with
  | nil =>
    intro sorted _ _ hs
    rw [binaryInsertLoop]
    exact hs
  | cons x xs ih =>
    intro sorted hnd hsub hs
    rw [binaryInsertLoop]
    have hxL : x ∈ L := hsub x (by simp)
    have hsortedL : ∀ u ∈ sorted, u ∈ L := fun u hu => hsub u (by simp [hu])
    have hxnotin : x ∉ sorted := by
      rcases List.nodup_append.1 hnd with ⟨-, -, hdisj⟩
      intro hx
      exact hdisj hx (by simp)
    have htr : ∀ u ∈ sorted, ∀ v ∈ sorted, c x u < 0 → c u v < 0 → c x v < 0 :=
      fun u hu v hv => htrans x hxL u (hsortedL u hu) v (hsortedL v hv)
    have htr2 : ∀ u ∈ sorted, ∀ v ∈ sorted, 0 ≤ c x v → c u v < 0 → 0 ≤ c x u := by
      intro u hu v hv h0 huv
      by_contra hneg
      have hxu : c x u < 0 := by omega
      have := htrans x hxL u (hsortedL u hu) v (hsortedL v hv) hxu huv
      omega
    obtain ⟨-, hple, hbef, haft⟩ :=
      bsearch_spec c sorted x hs htr htr2 0 sorted.length (Nat.zero_le _)
        (Nat.le_refl _) (fun k hk => absurd hk (Nat.not_lt_zero k))
        (fun k hk hklen => absurd hklen (by omega))
    have hbefore : ∀ k, k < bsearch c sorted x 0 sorted.length →
        c (sorted.getD k "") x < 0 := by
      intro k hk
      have hklen : k < sorted.length := Nat.lt_of_lt_of_le hk hple
      have hmem := getD_mem hklen
      have hne : sorted.getD k "" ≠ x := fun he => hxnotin (he ▸ hmem)
      have h0 := hbef k hk
      exact (htot _ (hsortedL _ hmem) x hxL hne).2 (by omega)
    have hpair := insertAt_pairwise hple hs hbefore haft
    have hperm : (insertAt sorted (bsearch c sorted x 0 sorted.length) x
        ++ xs).Perm (sorted ++ x :: xs) :=
      ((insertAt_perm ..).append_right xs).trans List.perm_middle.symm
    refine ih _ (hperm.nodup_iff.2 hnd) (fun u hu => hsub u (hperm.subset hu)) hpair

/-! ## The sort output is sorted when the comparator is a strict total order -/

theorem binaryInsert_run_pairwise (c : Label → Label → Int) (l : List Label)
    (hnd : l.Nodup)
    (htot : ∀ a ∈ l, ∀ b ∈ l, a ≠ b → (c a b < 0 ↔ ¬ c b a < 0))
    (htrans : ∀ a ∈ l, ∀ b ∈ l, ∀ d ∈ l, c a b < 0 → c b d < 0 → c a d < 0)
    (A : List Label) (n : Nat) (hA : A.Perm l)
    (hpref : (A.take n).Pairwise (fun u v => c u v < 0)) :
    (binaryInsertLoop c (A.take n) (A.drop n)).Pairwise (fun u v => c u v < 0) := by
  refine binaryInsertLoop_pairwise c l htot htrans (A.drop n) (A.take n) ?_ ?_ hpref
  · rw [List.take_append_drop]
    exact hA.nodup_iff.2 hnd
  · intro u hu
    rw [List.take_append_drop] at hu
    exact hA.subset hu

theorem jsSort_pairwise (c : Label → Label → Int) (l : List Label)
    (hnd : l.Nodup)
    (htot : ∀ a ∈ l, ∀ b ∈ l, a ≠ b → (c a b < 0 ↔ ¬ c b a < 0))
    (htrans : ∀ a ∈ l, ∀ b ∈ l, ∀ d ∈ l, c a b < 0 → c b d < 0 → c a d < 0) :
    (jsSort c l).Pairwise (fun u v => c u v < 0) := by
  match l, hnd, htot, htrans with
  | [], _, _, _ => simp [jsSort]
  | [x], _, _, _ => simp [jsSort]
  | x :: y :: rest, hnd, htot, htrans =>
    simp only [jsSort]
    split
    case isTrue hd =>
      rw [decide_eq_true hd]
      have hcntle := countRunAux_le c true y rest
      have htaken : (x :: y :: rest).take (2 + countRunAux c true y rest)
          = x :: y :: rest.take (countRunAux c true y rest) := by
        rw [Nat.add_comm]
        rfl
      have hchain : List.Chain' (fun u v => c v u < 0)
          (x :: y :: rest.take (countRunAux c true y rest)) :=
        List.chain'_cons.2 ⟨hd, countRunAux_chain_desc c y rest⟩
      have hsubl : (x :: y :: rest.take (countRunAux c true y rest)).Sublist
          (x :: y :: rest) :=
        ((List.take_sublist ..).cons₂ y).cons₂ x
      have hndm : (x :: y :: rest.take (countRunAux c true y rest)).Nodup :=
        List.Nodup.sublist hsubl hnd
      have hsubm : ∀ u ∈ x :: y :: rest.take (countRunAux c true y rest),
          u ∈ x :: y :: rest := fun u hu => hsubl.subset hu
      have hchain2 : List.Chain' (fun u v => ¬ c u v < 0)
          (x :: y :: rest.take (countRunAux c true y rest)) := by
        refine chain_imp_of_nodup _ hndm hchain ?_
        intro u hu v hv hne hS hT
        exact ((htot u (hsubm u hu) v (hsubm v hv) hne).1 hT) hS
      have hchainrev : List.Chain' (fun u v => ¬ c v u < 0)
          ((x :: y :: rest.take (countRunAux c true y rest)).reverse) := by
        rw [List.chain'_reverse]
        exact hchain2
      have hpref : ((x :: y :: rest.take
          (countRunAux c true y rest)).reverse).Pairwise
          (fun u v => c u v < 0) := by
        refine chain_pairwise_of_total c (x :: y :: rest) htot htrans _ ?_ ?_
          hchainrev
        · rw [List.nodup_reverse]
          exact hndm
        · intro u hu
          rw [List.mem_reverse] at hu
          exact hsubm u hu
      have hA : ((((x :: y :: rest).take (2 + countRunAux c true y rest)).reverse
          ++ (x :: y :: rest).drop (2 + countRunAux c true y rest)).Perm
          (x :: y :: rest)) := by
        have h1 := (List.reverse_perm
          ((x :: y :: rest).take (2 + countRunAux c true y rest))).append_right
          ((x :: y :: rest).drop (2 + countRunAux c true y rest))
        rwa [List.take_append_drop] at h1
      have hlenrev : ((((x :: y :: rest).take
          (2 + countRunAux c true y rest)).reverse)).length
          = 2 + countRunAux c true y rest := by
        rw [List.length_reverse, List.length_take]
        simp only [List.length_cons]
        omega
      have hAtake : ((((x :: y :: rest).take
          (2 + countRunAux c true y rest)).reverse
          ++ (x :: y :: rest).drop (2 + countRunAux c true y rest)).take
          (2 + countRunAux c true y rest))
          = ((x :: y :: rest).take (2 + countRunAux c true y rest)).reverse := by
        nth_rewrite 1 [← hlenrev]
        rw [List.take_left]
      refine binaryInsert_run_pairwise c (x :: y :: rest) hnd htot htrans _ _ hA ?_
      rw [hAtake, htaken]
      exact hpref
    case isFalse hd =>
      rw [decide_eq_false hd]
      have hcntle := countRunAux_le c false y rest
      have htaken : (x :: y :: rest).take (2 + countRunAux c false y rest)
          = x :: y :: rest.take (countRunAux c false y rest) := by
        rw [Nat.add_comm]
        rfl
      have hchain : List.Chain' (fun u v => ¬ c v u < 0)
          (x :: y :: rest.take (countRunAux c false y rest)) :=
        List.chain'_cons.2 ⟨hd, countRunAux_chain_asc c y rest⟩
      have hsubl : (x :: y :: rest.take (countRunAux c false y rest)).Sublist
          (x :: y :: rest) :=
        ((List.take_sublist ..).cons₂ y).cons₂ x
      have hpref : ((x :: y :: rest).take
          (2 + countRunAux c false y rest)).Pairwise (fun u v => c u v < 0) := by
        rw [htaken]
        refine chain_pairwise_of_total c (x :: y :: rest) htot htrans _ ?_ ?_ hchain
        · exact List.Nodup.sublist hsubl hnd
        · exact fun u hu => hsubl.subset hu
      exact binaryInsert_run_pairwise c (x :: y :: rest) hnd htot htrans _ _
        (List.Perm.refl _) hpref

/-! ## The comparator under a valid input with a total master relation -/

theorem sortByRules_neg_iff (M : Rules) (a b : Label) :
    sortByRules M a b < 0 ↔ hasRule M a b = true := by
  unfold sortByRules
  by_cases h1 : hasRule M a b = true
  · simp [h1]
  · rw [if_neg h1]
    by_cases h2 : hasRule M b a = true <;> simp [h1, h2]

theorem master_irrefl {input : List (List Label)} (hv : Valid input)
    (a : Label) : hasRule (getMasterRules input) a a = false := by
  cases h : hasRule (getMasterRules input) a a with
  | false => rfl
  | true => exact absurd (masterRules_sound h) (hv.2.2.2 a)

theorem master_asymm {input : List (List Label)} (hv : Valid input) {a b : Label}
    (h : hasRule (getMasterRules input) a b = true) :
    hasRule (getMasterRules input) b a = false := by
  cases hh : hasRule (getMasterRules input) b a with
  | false => rfl
  | true =>
    exact absurd ((masterRules_sound h).trans (masterRules_sound hh)) (hv.2.2.2 a)

theorem comparator_total {input : List (List Label)} (hv : Valid input)
    (ht : MasterTotal input) :
    ∀ a ∈ getUniq input, ∀ b ∈ getUniq input, a ≠ b →
      (sortByRules (getMasterRules input) a b < 0 ↔
        ¬ sortByRules (getMasterRules input) b a < 0) := by
  intro a ha b hb hne
  rw [sortByRules_neg_iff, sortByRules_neg_iff]
  constructor
  · intro hab hba
    have hfalse := master_asymm hv hab
    rw [hba] at hfalse
    exact Bool.true_eq_false ▸ hfalse
  · intro hnba
    rcases ht a ha b hb hne with h | h
    · exact h
    · exact absurd h hnba

theorem comparator_trans {input : List (List Label)} (hv : Valid input)
    (ht : MasterTotal input) :
    ∀ a ∈ getUniq input, ∀ b ∈ getUniq input, ∀ d ∈ getUniq input,
      sortByRules (getMasterRules input) a b < 0 →
      sortByRules (getMasterRules input) b d < 0 →
      sortByRules (getMasterRules input) a d < 0 := by
  intro a ha b hb d hd hab hbd
  rw [sortByRules_neg_iff] at hab hbd ⊢
  have htc : Relation.TransGen (DirectPair input) a d :=
    (masterRules_sound hab).trans (masterRules_sound hbd)
  by_cases hne : a = d
  · subst hne
    exact absurd htc (hv.2.2.2 a)
  · rcases ht a ha d hd hne with h | h
    · exact h
    · exact absurd (htc.trans (masterRules_sound h)) (hv.2.2.2 a)

/-- Under a valid input whose master relation is total over the distinct
labels, the output of `preserveOrder` is sorted by the master relation. -/
theorem preserveOrder_pairwise {input : List (List Label)}
    (hv : Valid input) (ht : MasterTotal input) :
    (preserveOrder input).Pairwise
      (fun u v => hasRule (getMasterRules input) u v = true) := by
  have hpw := jsSort_pairwise (sortByRules (getMasterRules input)) (getUniq input)
    (getUniq_nodup input) (comparator_total hv ht) (comparator_trans hv ht)
  refine hpw.imp ?_
  intro u v h
  exact (sortByRules_neg_iff ..).1 h

theorem before_of_pairwise {m : List Label} {R : Label → Label → Prop}
    (hpw : m.Pairwise R) {a b : Label} (ha : a ∈ m) (hb : b ∈ m)
    (hR : R a b) (hnR : ¬ R b a) : Before m a b := by
  obtain ⟨i, hi, hia⟩ := List.mem_iff_getElem.1 ha
  obtain ⟨j, hj, hjb⟩ := List.mem_iff_getElem.1 hb
  have hij : i < j := by
    rcases Nat.lt_trichotomy i j with h | h | h
    · exact h
    · exfalso
      subst h
      obtain rfl : a = b := hia.symm.trans hjb
      exact hnR hR
    · exfalso
      exact hnR (hia ▸ hjb ▸ List.pairwise_iff_getElem.1 hpw j i hj hi h)
  refine ⟨i, j, hi, hj, hij, ?_, ?_⟩
  · rw [List.get_eq_getElem]
    exact hia
  · rw [List.get_eq_getElem]
    exact hjb

theorem mem_preserveOrder_iff {input : List (List Label)} {x : Label} :
    x ∈ preserveOrder input ↔ ∃ s ∈ input, x ∈ s :=
  ((preserveOrder_perm input).mem_iff).trans mem_getUniq_iff

theorem preserveOrder_perm_dedup (input : List (List Label)) :
    (preserveOrder input).Perm input.flatten.dedup := by
  refine (preserveOrder_perm input).trans ?_
  rw [List.perm_ext_iff_of_nodup (getUniq_nodup input) (List.nodup_dedup _)]
  intro a
  rw [mem_getUniq_iff, List.mem_dedup, List.mem_flatten]

/-! ## Shared concrete helpers for witnesses -/

theorem before_mem_left {m : List Label} {a b : Label} (h : Before m a b) :
    a ∈ m := by
  obtain ⟨i, j, hi, hj, _, ha, _⟩ := h
  exact ha ▸ List.get_mem ..

theorem before_mem_right {m : List Label} {a b : Label} (h : Before m a b) :
    b ∈ m := by
  obtain ⟨i, j, hi, hj, _, _, hb⟩ := h
  exact hb ▸ List.get_mem ..

theorem sortByRules_eq_neg_one {M : Rules} {a b : Label}
    (h : sortByRules M a b = -1) : hasRule M a b = true := by
  unfold sortByRules at h
  by_cases h1 : hasRule M a b = true
  · exact h1
  · rw [if_neg h1] at h
    by_cases h2 : hasRule M b a = true
    · rw [if_pos h2] at h
      exact absurd h (by decide)
    · rw [if_neg h2] at h
      exact absurd h (by decide)

/-- The repository's `input1` example is a valid input. -/
theorem valid_input1 : Valid [["a","b"],["b","c"]] :=
  valid_of_ranked _ (fun l => (["a","b","c"]).indexOf l)
    (by decide) (by decide) (by decide)

/-! ## The claims -/

/-- C8: for every input, every direct pairwise rule — the label at position
`i` of an input sequence precedes the label at any later position `j` — is
recorded by `getMasterRules`: the merge pass only ever adds entries. -/
theorem C8_master_contains_direct (input : List (List Label))
    (s : List Label) (hs : s ∈ input) (i j : Nat)
    (hi : i < s.length) (hj : j < s.length) (hij : i < j) :
    hasRule (getMasterRules input) (s.get ⟨i, hi⟩) (s.get ⟨j, hj⟩) = true :=
  masterRules_complete ⟨s, hs, mem_seqPairs_iff.2 ⟨i, j, hi, hj, hij, rfl, rfl⟩⟩

theorem C8_witness :
    hasRule (getMasterRules [["a","b"],["b","c"]]) "a" "b" = true :=
  C8_master_contains_direct [["a","b"],["b","c"]] ["a","b"]
    (by decide) 0 1 (by decide) (by decide) (by decide)

/-- C9: for every valid input the master relation is irreflexive and
asymmetric, so the comparator never classifies a pair as less in both
directions. -/
theorem C9_master_irreflexive_asymmetric (input : List (List Label))
    (hv : Valid input) :
    (∀ a, hasRule (getMasterRules input) a a = false) ∧
    (∀ a b, hasRule (getMasterRules input) a b = true →
      hasRule (getMasterRules input) b a = false) ∧
    (∀ a b, ¬ (sortByRules (getMasterRules input) a b = -1 ∧
      sortByRules (getMasterRules input) b a = -1)) := by
  refine ⟨master_irrefl hv, fun a b => master_asymm hv, ?_⟩
  rintro a b ⟨h1, h2⟩
  have hab := sortByRules_eq_neg_one h1
  have hba := sortByRules_eq_neg_one h2
  have hf := master_asymm hv hab
  rw [hba] at hf
  exact absurd hf (by decide)

theorem C9_witness :
    hasRule (getMasterRules [["a","b"],["b","c"]]) "a" "a" = false :=
  (C9_master_irreflexive_asymmetric [["a","b"],["b","c"]] valid_input1).1 "a"

/-- C1 counterexample: `input7` is a valid input whose master relation
records `e` before `c` and `c` before `b` but not `e` before `b`: the
relation returned by the single merge pass is not transitively closed. -/
theorem C1_counterexample :
    Valid [["e","d"],["d","c"],["c","b"],["b","a"]] ∧
    hasRule (getMasterRules [["e","d"],["d","c"],["c","b"],["b","a"]])
      "e" "c" = true ∧
    hasRule (getMasterRules [["e","d"],["d","c"],["c","b"],["b","a"]])
      "c" "b" = true ∧
    hasRule (getMasterRules [["e","d"],["d","c"],["c","b"],["b","a"]])
      "e" "b" = false :=
  ⟨valid_of_ranked _ (fun l => (["e","d","c","b","a"]).indexOf l)
      (by decide) (by decide) (by decide),
    by decide, by decide, by decide⟩

/-- C1 amended: the relation returned by `getMasterRules` contains every
direct rule and every two-step composition of direct rules (when the merge
pass reaches key `A`, the snapshot holds its direct successor `B`, whose set
already holds `C`), but not the full transitive closure. -/
theorem C1_amended_two_step_closure (input : List (List Label))
    (a b c : Label) (h1 : DirectPair input a b) (h2 : DirectPair input b c) :
    hasRule (getMasterRules input) a b = true ∧
    hasRule (getMasterRules input) b c = true ∧
    hasRule (getMasterRules input) a c = true :=
  ⟨masterRules_complete h1, masterRules_complete h2,
    masterRules_two_step h1 h2⟩

theorem C1_amended_witness :
    hasRule (getMasterRules [["e","d"],["d","c"]]) "e" "c" = true :=
  (C1_amended_two_step_closure [["e","d"],["d","c"]] "e" "d" "c"
    ⟨["e","d"], by decide, by decide⟩ ⟨["d","c"], by decide, by decide⟩).2.2

/-- C2 counterexample: `[[a,b],[a,c],[d,b]]` is a valid input whose third
sequence places `d` at position 0 and `b` at position 1, yet the output
`[a,b,c,d]` does not place `d` before `b` (the whole uniq array is detected
as one weakly ascending run and returned unchanged). -/
theorem C2_counterexample :
    Valid [["a","b"],["a","c"],["d","b"]] ∧
    ["d","b"] ∈ [["a","b"],["a","c"],["d","b"]] ∧
    Before ["d","b"] "d" "b" ∧
    preserveOrder [["a","b"],["a","c"],["d","b"]] = ["a","b","c","d"] ∧
    ¬ Before (preserveOrder [["a","b"],["a","c"],["d","b"]]) "d" "b" :=
  ⟨valid_of_ranked _ (fun l => (["a","d","c","b"]).indexOf l)
      (by decide) (by decide) (by decide),
    by decide, by decide, by decide, by decide⟩

/-- C2 amended: for every valid input whose master relation relates every
two distinct labels (is total), every in-sequence pair of positions `i < j`
is honored in the output of `preserveOrder`. -/
theorem C2_amended_order_preservation (input : List (List Label))
    (hv : Valid input) (ht : MasterTotal input)
    (s : List Label) (hs : s ∈ input) (i j : Nat)
    (hi : i < s.length) (hj : j < s.length) (hij : i < j) :
    Before (preserveOrder input) (s.get ⟨i, hi⟩) (s.get ⟨j, hj⟩) := by
  have hdp : DirectPair input (s.get ⟨i, hi⟩) (s.get ⟨j, hj⟩) :=
    ⟨s, hs, mem_seqPairs_iff.2 ⟨i, j, hi, hj, hij, rfl, rfl⟩⟩
  have hR := masterRules_complete hdp
  refine before_of_pairwise (preserveOrder_pairwise hv ht) ?_ ?_ hR ?_
  · exact mem_preserveOrder_iff.2 ⟨s, hs, List.get_mem ..⟩
  · exact mem_preserveOrder_iff.2 ⟨s, hs, List.get_mem ..⟩
  · intro hba
    have hf := master_asymm hv hR
    rw [hba] at hf
    exact absurd hf (by decide)

theorem C2_amended_witness :
    Before (preserveOrder [["a","b"],["b","c"]]) "a" "b" :=
  C2_amended_order_preservation [["a","b"],["b","c"]] valid_input1 (by decide)
    ["a","b"] (by decide) 0 1 (by decide) (by decide) (by decide)

/-- C5 counterexample: in the valid input `[[a,b],[c,b],[d,a]]`, sequence
`[d,a]` places `d` before `a`, a different sequence `[a,b]` places `a`
before `b`, and `d`, `a`, `b` are not all in one sequence; yet the output
`[a,c,d,b]` does not place `d` before `a`. -/
theorem C5_counterexample :
    Valid [["a","b"],["c","b"],["d","a"]] ∧
    ["d","a"] ∈ [["a","b"],["c","b"],["d","a"]] ∧
    ["a","b"] ∈ [["a","b"],["c","b"],["d","a"]] ∧
    ["d","a"] ≠ ["a","b"] ∧
    Before ["d","a"] "d" "a" ∧
    Before ["a","b"] "a" "b" ∧
    (∀ s ∈ [["a","b"],["c","b"],["d","a"]], ¬ ("d" ∈ s ∧ "a" ∈ s ∧ "b" ∈ s)) ∧
    preserveOrder [["a","b"],["c","b"],["d","a"]] = ["a","c","d","b"] ∧
    ¬ Before (preserveOrder [["a","b"],["c","b"],["d","a"]]) "d" "a" :=
  ⟨valid_of_ranked _ (fun l => (["c","d","a","b"]).indexOf l)
      (by decide) (by decide) (by decide),
    by decide, by decide, by decide, by decide, by decide, by decide,
    by decide, by decide⟩

/-- C5 amended: for every valid input whose master relation is total over
the distinct labels, a chain `A` before `B` (in sequence `X`) and `B` before
`C` (in a different sequence `Y`, the three labels not all in one sequence)
is honored in the output: `A` before `B`, `B` before `C`, hence `A` before
`C`. -/
theorem C5_amended_cross_chain (input : List (List Label))
    (hv : Valid input) (ht : MasterTotal input)
    (X Y : List Label) (hX : X ∈ input) (hY : Y ∈ input) (_hXY : X ≠ Y)
    (A B C : Label) (hAB : Before X A B) (hBC : Before Y B C)
    (_hsep : ¬ ∃ s ∈ input, A ∈ s ∧ B ∈ s ∧ C ∈ s) :
    Before (preserveOrder input) A B ∧ Before (preserveOrder input) B C ∧
    Before (preserveOrder input) A C := by
  have h1 : DirectPair input A B := ⟨X, hX, mem_seqPairs_iff.2 hAB⟩
  have h2 : DirectPair input B C := ⟨Y, hY, mem_seqPairs_iff.2 hBC⟩
  have hRab := masterRules_complete h1
  have hRbc := masterRules_complete h2
  have hRac := masterRules_two_step h1 h2
  have hpw := preserveOrder_pairwise hv ht
  have hmA : A ∈ preserveOrder input :=
    mem_preserveOrder_iff.2 ⟨X, hX, before_mem_left hAB⟩
  have hmB : B ∈ preserveOrder input :=
    mem_preserveOrder_iff.2 ⟨X, hX, before_mem_right hAB⟩
  have hmC : C ∈ preserveOrder input :=
    mem_preserveOrder_iff.2 ⟨Y, hY, before_mem_right hBC⟩
  have asym : ∀ {u v : Label}, hasRule (getMasterRules input) u v = true →
      ¬ hasRule (getMasterRules input) v u = true := by
    intro u v h hvu
    have hf := master_asymm hv h
    rw [hvu] at hf
    exact absurd hf (by decide)
  exact ⟨before_of_pairwise hpw hmA hmB hRab (asym hRab),
    before_of_pairwise hpw hmB hmC hRbc (asym hRbc),
    before_of_pairwise hpw hmA hmC hRac (asym hRac)⟩

theorem C5_amended_witness :
    Before (preserveOrder [["a","b"],["b","c"]]) "a" "c" :=
  (C5_amended_cross_chain [["a","b"],["b","c"]] valid_input1 (by decide)
    ["a","b"] ["b","c"] (by decide) (by decide) (by decide)
    "a" "b" "c" (by decide) (by decide) (by decide)).2.2

/-- C3: for every valid input the output of `preserveOrder` contains each
label occurring anywhere in the input exactly once, contains nothing else,
and its length is the number of distinct labels of the input. -/
theorem C3_completeness (input : List (List Label)) (_hv : Valid input) :
    (∀ l, (∃ s ∈ input, l ∈ s) → (preserveOrder input).count l = 1) ∧
    (∀ l, ¬ (∃ s ∈ input, l ∈ s) → (preserveOrder input).count l = 0) ∧
    (preserveOrder input).length = input.flatten.dedup.length := by
  have hnd : (preserveOrder input).Nodup :=
    (preserveOrder_perm input).nodup_iff.2 (getUniq_nodup input)
  refine ⟨?_, ?_, (preserveOrder_perm_dedup input).length_eq⟩
  · intro l hl
    exact List.count_eq_one_of_mem hnd (mem_preserveOrder_iff.2 hl)
  · intro l hl
    exact List.count_eq_zero_of_not_mem
      (fun hm => hl (mem_preserveOrder_iff.1 hm))

theorem C3_witness :
    (preserveOrder [["a","b"],["b","c"]]).count "a" = 1 :=
  (C3_completeness [["a","b"],["b","c"]] valid_input1).1 "a" (by decide)

/-- C4 counterexample: permuting the outer list of the valid input
`[[a,b],[c,d]]` (two disjoint groups) changes the output: the groups keep
their arrival order. -/
theorem C4_counterexample :
    Valid [["a","b"],["c","d"]] ∧ Valid [["c","d"],["a","b"]] ∧
    List.Perm [["c","d"],["a","b"]] [["a","b"],["c","d"]] ∧
    preserveOrder [["a","b"],["c","d"]] = ["a","b","c","d"] ∧
    preserveOrder [["c","d"],["a","b"]] = ["c","d","a","b"] :=
  ⟨valid_of_ranked _ (fun l => (["a","b","c","d"]).indexOf l)
      (by decide) (by decide) (by decide),
    valid_of_ranked _ (fun l => (["a","b","c","d"]).indexOf l)
      (by decide) (by decide) (by decide),
    by decide, by decide, by decide⟩

/-- C4 amended: permuting the outer list leaves the output unchanged
whenever the master relations of both the original and the permuted list
are total over the distinct labels: both outputs are then the unique
linearization of the (shared) transitive closure of the direct rules. -/
theorem C4_amended_permutation_invariance (input input' : List (List Label))
    (hperm : List.Perm input input') (hv : Valid input)
    (ht : MasterTotal input) (ht' : MasterTotal input') :
    preserveOrder input' = preserveOrder input := by
  have hdp : ∀ a b, DirectPair input a b ↔ DirectPair input' a b := by
    intro a b
    constructor
    · rintro ⟨s, hs, hp⟩
      exact ⟨s, hperm.subset hs, hp⟩
    · rintro ⟨s, hs, hp⟩
      exact ⟨s, hperm.symm.subset hs, hp⟩
  have htg : ∀ a b, Relation.TransGen (DirectPair input) a b ↔
      Relation.TransGen (DirectPair input') a b := by
    intro a b
    constructor
    · intro h
      exact Relation.TransGen.mono (fun x y hxy => (hdp x y).1 hxy) h
    · intro h
      exact Relation.TransGen.mono (fun x y hxy => (hdp x y).2 hxy) h
  have hv' : Valid input' := by
    refine ⟨?_, ?_, ?_, ?_⟩
    · intro he
      subst he
      exact hv.1 hperm.eq_nil
    · intro s hs
      exact hv.2.1 s (hperm.symm.subset hs)
    · intro a b hab hba
      exact hv.2.2.1 a b ((hdp a b).2 hab) ((hdp b a).2 hba)
    · intro a ha
      exact hv.2.2.2 a ((htg a a).2 ha)
  have houts : (preserveOrder input').Perm (preserveOrder input) := by
    refine (preserveOrder_perm input').trans (List.Perm.trans ?_
      (preserveOrder_perm input).symm)
    rw [List.perm_ext_iff_of_nodup (getUniq_nodup _) (getUniq_nodup _)]
    intro a
    rw [mem_getUniq_iff, mem_getUniq_iff]
    constructor
    · rintro ⟨s, hs, ha⟩
      exact ⟨s, hperm.symm.subset hs, ha⟩
    · rintro ⟨s, hs, ha⟩
      exact ⟨s, hperm.subset hs, ha⟩
  haveI : IsAntisymm Label
      (fun a b => Relation.TransGen (DirectPair input) a b ∨ a = b) := by
    constructor
    intro a b h1 h2
    rcases h1 with h1 | h1
    · rcases h2 with h2 | h2
      · exact absurd (h1.trans h2) (hv.2.2.2 a)
      · exact h2.symm
    · exact h1
  have hs2 : List.Sorted
      (fun a b => Relation.TransGen (DirectPair input) a b ∨ a = b)
      (preserveOrder input') :=
    (preserveOrder_pairwise hv' ht').imp
      (fun h => Or.inl ((htg ..).2 (masterRules_sound h)))
  have hs1 : List.Sorted
      (fun a b => Relation.TransGen (DirectPair input) a b ∨ a = b)
      (preserveOrder input) :=
    (preserveOrder_pairwise hv ht).imp
      (fun h => Or.inl (masterRules_sound h))
  exact List.eq_of_perm_of_sorted houts hs2 hs1

theorem C4_amended_witness :
    preserveOrder [["b","c"],["a","b"]] = preserveOrder [["a","b"],["b","c"]] :=
  C4_amended_permutation_invariance [["a","b"],["b","c"]] [["b","c"],["a","b"]]
    (by decide) valid_input1 (by decide) (by decide)

/-- C6: the literal four-link chain input in reverse-alphabetical direction
merges to the full chain. -/
theorem C6_reverse_chain :
    preserveOrder [["e","d"],["d","c"],["c","b"],["b","a"]]
      = ["e","d","c","b","a"] := by
  decide

/-- C7: a sequence of length 1 contributes no rules (`updateRules` returns
the table unchanged for it), yet its label still appears in the output. -/
theorem C7_singleton (input : List (List Label)) (s : List Label)
    (hs : s ∈ input) (hlen : s.length = 1) :
    (∀ rules : Rules, updateRules s rules = rules) ∧
    (∀ l ∈ s, l ∈ preserveOrder input) := by
  refine ⟨fun rules => ?_, fun l hl => ?_⟩
  · unfold updateRules
    rw [if_pos (by omega)]
  · exact mem_preserveOrder_iff.2 ⟨s, hs, hl⟩

theorem C7_witness :
    updateRules ["x"] [] = [] ∧ "x" ∈ preserveOrder [["a","b"],["x"]] :=
  ⟨(C7_singleton [["a","b"],["x"]] ["x"] (by decide) (by decide)).1 [],
    (C7_singleton [["a","b"],["x"]] ["x"] (by decide) (by decide)).2 "x"
      (by decide)⟩

/-- C10: on every input whatsoever — including inputs violating the
preconditions (cycles, contradictions, duplicates, singletons) — the
embedding of `preserveOrder` is a total function (the source contains no
`throw` and cannot fail on an array of arrays of strings) whose output is a
permutation of the distinct labels of the input: nothing is ever dropped,
duplicated, or added, and no error is reported. -/
theorem C10_total_permutation (input : List (List Label)) :
    (preserveOrder input).Perm input.flatten.dedup ∧
    (∀ l, l ∈ preserveOrder input ↔ ∃ s ∈ input, l ∈ s) ∧
    (preserveOrder input).Nodup :=
  ⟨preserveOrder_perm_dedup input, fun _ => mem_preserveOrder_iff,
    (preserveOrder_perm input).nodup_iff.2 (getUniq_nodup input)⟩

end PreserveOrder
